import Mathlib

/-!
Shallow embedding of src/compiler/visual-script-compiler.ts from the
dream-emulator repository, together with proofs about it.

Modelling conventions:
  * TS strings are Lean `String`s; `x || dflt` on strings is `jsOrS`
    (both `null`/`undefined` and the empty string are falsy in JS);
    template interpolation of a possibly-null string is `tmplOpt`
    (JS renders `null` as the text "null").
  * A JS `Map` is an association list kept in insertion order:
    `set` on a present key updates it in place, on an absent key appends
    (`jsMapSet`); `get` finds the unique live binding (`jsMapGet`).
    The compiler's `nodeOutputs` map only ever needs `get`/`set`, so it
    is modelled by prepending pairs and reading the first match, which
    has the same observable behaviour.
  * Literal braces in emitted code strings are written with
    character escapes.
  * JS runtime failures (calling a method on `undefined`, iterating
    `undefined`) are modelled by `JsError.typeError`.  The recursive
    node compiler takes a fuel argument standing for the JS call stack;
    exhaustion models a stack overflow.  `compile` hands each top-level
    node `nodes.length + 1` fuel, which is at least the depth of any
    terminating TS execution (nesting can only descend through distinct
    nodes before the TS code would recurse forever).
  * The code emitter stores `(indentLevel, text)` pairs; rendering
    prefixes four spaces per level exactly as `writeLine` does in TS.
-/

/-- `VisualScriptNode` from src/store: `id`, `type`, and the `data`
fields the compiler reads (`data.label`, `data.componentType`,
`data.components`).  `position`, `inputs`, `outputs` are never read by
the compiler and are omitted. -/
structure VisualScriptNode where
  id : String
  type : String
  data_label : Option String := none
  data_componentType : Option String := none
  data_components : Option (List String) := none
deriving DecidableEq, Repr

/-- `VisualScriptConnection` from src/store. -/
structure VisualScriptConnection where
  id : String
  source : String
  sourceHandle : String
  target : String
  targetHandle : String
deriving DecidableEq, Repr

/-- `VisualScript` from src/store (the compiler reads `name`, `nodes`,
`connections`). -/
structure VisualScript where
  id : String
  name : String
  nodes : List VisualScriptNode
  connections : List VisualScriptConnection
deriving DecidableEq, Repr

/-- `CompiledSystem` from the compiler module. -/
structure CompiledSystem where
  name : String
  code : String
  dependencies : List String
deriving DecidableEq, Repr

/-- A JS runtime exception (`TypeError`, stack overflow, ...). -/
inductive JsError where
  | typeError : String → JsError
deriving DecidableEq, Repr

/-- The mutable instance state of `VisualScriptCompiler`:
`indentLevel`, `output` (as level-tagged raw lines) and `nodeOutputs`. -/
structure CompilerState where
  indentLevel : Int
  output : List (Int × String)
  nodeOutputs : List (String × String)
deriving DecidableEq, Repr

def initState : CompilerState := { indentLevel := 0, output := [], nodeOutputs := [] }

/-- `reset()`: zero the indent level, clear the output and the symbol table. -/
def reset (st : CompilerState) : CompilerState :=
  { st with indentLevel := 0, output := [], nodeOutputs := [] }

/-- JS `x || dflt` where `x : string | null` (null and "" are falsy). -/
def jsOrS (o : Option String) (dflt : String) : String :=
  match o with
  | some v => if v == "" then dflt else v
  | none => dflt

/-- JS template interpolation of a `string | null` value. -/
def tmplOpt (o : Option String) : String :=
  match o with
  | some v => v
  | none => "null"

/-- `writeLine(line)`: push the line tagged with the current indent level. -/
def writeLine (st : CompilerState) (line : String) : CompilerState :=
  { st with output := st.output ++ [(st.indentLevel, line)] }

/-- `indent()`. -/
def indent (st : CompilerState) : CompilerState :=
  { st with indentLevel := st.indentLevel + 1 }

/-- `dedent()`. -/
def dedent (st : CompilerState) : CompilerState :=
  { st with indentLevel := st.indentLevel - 1 }

/-- Four spaces per indent level, as `'    '.repeat(this.indentLevel)`. -/
def indentOf (lvl : Int) : String :=
  String.join (List.replicate lvl.toNat ("    "))

/-- Render one stored output line exactly as `writeLine` renders it. -/
def renderLine (p : Int × String) : String := indentOf p.1 ++ p.2

/-- `this.output.join('\n')`. -/
def renderOutput (st : CompilerState) : String :=
  String.intercalate "\n" (st.output.map renderLine)

/-- `this.nodeOutputs.set(key, v)`. -/
def setOutput (st : CompilerState) (key v : String) : CompilerState :=
  { st with nodeOutputs := (key, v) :: st.nodeOutputs }

/-- `this.nodeOutputs.get(key)`. -/
def outputsGet (st : CompilerState) (key : String) : Option String :=
  (st.nodeOutputs.find? (fun p => p.1 == key)).map (fun p => p.2)

/-- `sanitizeId`'s character class `[a-zA-Z0-9_]`. -/
def isIdentChar (c : Char) : Bool :=
  ('a' ≤ c && c ≤ 'z') || ('A' ≤ c && c ≤ 'Z') || ('0' ≤ c && c ≤ '9') || c == '_'

/-- One step of the regex replacement in `sanitizeId`. -/
def sanitizeChar (c : Char) : Char :=
  if isIdentChar c then c else '_'

/-- `sanitizeId(id)`: `id.replace(/[^a-zA-Z0-9_]/g, '_')` — the pattern
matches single characters, globally, so it is a per-character map. -/
def sanitizeId (id : String) : String := String.mk (id.data.map sanitizeChar)

/-- Split a character list at every separator character (the semantics
of splitting on a single-character match, keeping empty segments). -/
def splitChars (p : Char → Bool) : List Char → List (List Char)
  | [] => [[]]
  | c :: rest =>
    if p c then [] :: splitChars p rest
    else
      match splitChars p rest with
      | [] => [[c]]
      | w :: ws => (c :: w) :: ws

/-- `word.charAt(0).toUpperCase() + word.slice(1)` (ASCII intent). -/
def capitalizeWord (w : List Char) : String :=
  match w with
  | [] => ""
  | c :: rest => String.mk (c.toUpper :: rest)

/-- The separator class `[\s-_]` of `toRustName` (whitespace, a literal
dash, underscore). -/
def isRustNameSep (c : Char) : Bool := c.isWhitespace || c == '-' || c == '_'

/-- `toRustName`: split on `[\s-_]+`, capitalize each word, join.  JS's
`+` collapses separator runs where this split keeps empty segments, but
empty segments capitalize to the empty string and vanish in the join, so
the results agree. -/
def toRustName (name : String) : String :=
  String.join ((splitChars isRustNameSep name.data).map capitalizeWord)

/-- The `buildConnectionMap` key `` `${conn.source}_${conn.sourceHandle}` ``. -/
def connKey (c : VisualScriptConnection) : String :=
  c.source ++ "_" ++ c.sourceHandle

/-- `connectionMap.get(key) || []`: all connections grouped under `key`,
in insertion order. -/
def connMapGet (conns : List VisualScriptConnection) (key : String) :
    List VisualScriptConnection :=
  conns.filter (fun c => connKey c == key)

/-- The keys of `buildConnectionMap`'s result in insertion order. -/
def connMapKeys (conns : List VisualScriptConnection) : List String :=
  conns.foldl (fun ks c => if ks.contains (connKey c) then ks else ks ++ [connKey c]) []

/-- The flattened iteration order of `connections.entries()` inside
`getInputValue`: per key in key-insertion order, each key's list in push
order. -/
def connMapEntries (conns : List VisualScriptConnection) : List VisualScriptConnection :=
  (connMapKeys conns).flatMap (fun k => connMapGet conns k)

/-- `getInputValue(nodeId, inputName, connections)`: scan the connection
map for the first connection into `(nodeId, inputName)` and return the
producer's bound symbol (`|| null`). -/
def getInputValue (nodeId inputName : String) (conns : List VisualScriptConnection)
    (st : CompilerState) : Option String :=
  match (connMapEntries conns).find?
      (fun c => c.target == nodeId && c.targetHandle == inputName) with
  | some c =>
    match outputsGet st c.source with
    | some v => if v == "" then none else some v
    | none => none
  | none => none

/-- `new Map(nodes.map(n => [n.id, n])).get(id)`: the last node wins on a
duplicate id, as in the JS `Map` constructor. -/
def nodesMapGet (nodes : List VisualScriptNode) (id : String) : Option VisualScriptNode :=
  (nodes.filter (fun n => n.id == id)).getLast?

/-- `extractDependencies`: first-seen-order set of component types plus
capability names for specific node types. -/
def extractDependencies (nodes : List VisualScriptNode) : List String :=
  nodes.foldl (fun deps n =>
    let deps :=
      match n.data_componentType with
      | some ct => if ct == "" then deps else if deps.contains ct then deps else deps ++ [ct]
      | none => deps
    if n.type == "physics/raycast" then
      if deps.contains ("physics") then deps else deps ++ [("physics")]
    else if n.type == "audio/play" then
      if deps.contains ("audio") then deps else deps ++ [("audio")]
    else deps) []

/-! ### JS `Map` association lists used by `topologicalSort` -/

/-- `map.get(k)`. -/
def jsMapGet {α : Type} (m : List (String × α)) (k : String) : Option α :=
  (m.find? (fun p => p.1 == k)).map (fun p => p.2)

/-- `map.set(k, v)`: update in place when present, append when absent. -/
def jsMapSet {α : Type} (m : List (String × α)) (k : String) (v : α) :
    List (String × α) :=
  if m.any (fun p => p.1 == k) then
    m.map (fun p => if p.1 == k then (k, v) else p)
  else m ++ [(k, v)]

/-- The `for (const conn of connections)` loop building the adjacency
list and the in-degree map.  `graph.get(conn.source)!.push(...)` throws a
`TypeError` when the source id has no entry; a missing target id gets a
fresh in-degree entry (a phantom node). -/
def buildAdj : List VisualScriptConnection → List (String × List String) →
    List (String × Int) →
    Except JsError (List (String × List String) × List (String × Int))
  | [], g, d => .ok (g, d)
  | c :: rest, g, d =>
    match jsMapGet g c.source with
    | none => .error (.typeError ("Cannot read properties of undefined (reading push)"))
    | some lst =>
      buildAdj rest (jsMapSet g c.source (lst ++ [c.target]))
        (jsMapSet d c.target ((jsMapGet d c.target).getD 0 + 1))

/-- The neighbour loop of one Kahn iteration: decrement each successor's
in-degree and enqueue the ones that reach exactly zero. -/
def processNeighbors : List String → List (String × Int) → List String →
    List (String × Int) × List String
  | [], d, q => (d, q)
  | nb :: rest, d, q =>
    let deg := (jsMapGet d nb).getD 0 - 1
    processNeighbors rest (jsMapSet d nb deg) (if deg == 0 then q ++ [nb] else q)

/-- The `while (queue.length > 0)` loop of `topologicalSort`.  Dequeuing
an id with no graph entry (a phantom in-degree entry from a missing
target) makes the TS code iterate `undefined`, a `TypeError`.  The fuel
only models the unbounded `while`; `topologicalSort` passes enough fuel
that exhaustion is unreachable (each id is enqueued at most once). -/
def kahnLoop (nodes : List VisualScriptNode) (g : List (String × List String)) :
    Nat → List (String × Int) → List String → List VisualScriptNode →
    Except JsError (List VisualScriptNode)
  | 0, _, _, _ => .error (.typeError ("loop fuel exhausted"))
  | fuel + 1, d, queue, sorted =>
    match queue with
    | [] => .ok sorted
    | id :: rest =>
      match nodesMapGet nodes id, jsMapGet g id with
      | some node, some nbs =>
        let dq := processNeighbors nbs d rest
        kahnLoop nodes g fuel dq.1 dq.2 (sorted ++ [node])
      | _, _ => .error (.typeError ("undefined is not iterable"))

/-- `topologicalSort(nodes, connections)`: Kahn's algorithm exactly as in
the source — in particular it returns whatever sorted when the queue runs
dry, silently omitting any nodes still having nonzero in-degree. -/
def topologicalSort (nodes : List VisualScriptNode)
    (conns : List VisualScriptConnection) :
    Except JsError (List VisualScriptNode) :=
  let g0 := nodes.foldl (fun g n => jsMapSet g n.id []) []
  let d0 := nodes.foldl (fun d n => jsMapSet d n.id (0 : Int)) []
  match buildAdj conns g0 d0 with
  | .error e => .error e
  | .ok gd =>
    let queue0 := (gd.2.filter (fun p => p.2 == 0)).map (fun p => p.1)
    kahnLoop nodes gd.1 (nodes.length + conns.length + 1) gd.2 queue0 []

/-! ### Per-node-type emission -/

/-- `compileUpdateEvent`. -/
def compileUpdateEvent (node : VisualScriptNode) (st : CompilerState) : CompilerState :=
  setOutput st node.id ("dt")

/-- `compileCollisionEvent`: opens the collision-pair loop and indents;
the source never emits the matching close or dedent. -/
def compileCollisionEvent (node : VisualScriptNode) (st : CompilerState) : CompilerState :=
  let st := writeLine st ("for (entity_a, entity_b) in physics.get_collision_pairs() \x7b")
  let st := indent st
  let st := setOutput st (node.id ++ "_a") ("entity_a")
  setOutput st (node.id ++ "_b") ("entity_b")

/-- `compileGetEntities`. -/
def compileGetEntities (node : VisualScriptNode) (st : CompilerState) : CompilerState :=
  let components := node.data_components.getD [("Transform")]
  let queryVar := "query_" ++ sanitizeId node.id
  let componentTypes := String.intercalate (", ") (components.map (fun c => "&" ++ c))
  let st := writeLine st ("let " ++ queryVar ++ " = world.query::<(" ++ componentTypes ++ ")>();")
  setOutput st node.id queryVar

/-- `compileGetComponent`. -/
def compileGetComponent (node : VisualScriptNode) (conns : List VisualScriptConnection)
    (st : CompilerState) : CompilerState :=
  let entityInput := getInputValue node.id ("entity") conns st
  let componentType := jsOrS node.data_componentType ("Transform")
  let outputVar := "comp_" ++ sanitizeId node.id
  let st := writeLine st ("let " ++ outputVar ++ " = world.get_component::<" ++ componentType
    ++ ">(" ++ tmplOpt entityInput ++ ")?;")
  setOutput st node.id outputVar

/-- `compileSetComponent` (the source also reads `data.componentType`
here but never uses it). -/
def compileSetComponent (node : VisualScriptNode) (conns : List VisualScriptConnection)
    (st : CompilerState) : CompilerState :=
  let entityInput := getInputValue node.id ("entity") conns st
  let componentInput := getInputValue node.id ("component") conns st
  writeLine st ("world.set_component(" ++ tmplOpt entityInput ++ ", "
    ++ tmplOpt componentInput ++ ");")

/-- `compileMathOperation`: unresolved inputs default to `0.0`; one
binding statement; bind the result symbol. -/
def compileMathOperation (node : VisualScriptNode) (conns : List VisualScriptConnection)
    (op : String) (st : CompilerState) : CompilerState :=
  let leftInput := jsOrS (getInputValue node.id ("a") conns st) ("0.0")
  let rightInput := jsOrS (getInputValue node.id ("b") conns st) ("0.0")
  let outputVar := "result_" ++ sanitizeId node.id
  let st := writeLine st ("let " ++ outputVar ++ " = " ++ leftInput ++ " " ++ op ++ " "
    ++ rightInput ++ ";")
  setOutput st node.id outputVar

/-- The `for (const conn of ...) if (targetNode) compileNode(...)` loop
shared by branch/loop bodies, abstracted over the recursive call. -/
def compileConnSeq (recur : VisualScriptNode → CompilerState → Except JsError CompilerState) :
    List VisualScriptConnection → List VisualScriptNode → CompilerState →
    Except JsError CompilerState
  | [], _, st => .ok st
  | c :: rest, nodes, st =>
    match nodesMapGet nodes c.target with
    | some targetNode =>
      match recur targetNode st with
      | .error e => .error e
      | .ok st' => compileConnSeq recur rest nodes st'
    | none => compileConnSeq recur rest nodes st

/-- `compileIfStatement`, abstracted over the recursive `compileNode`. -/
def compileIfStatement
    (recur : VisualScriptNode → CompilerState → Except JsError CompilerState)
    (node : VisualScriptNode) (conns : List VisualScriptConnection)
    (nodes : List VisualScriptNode) (st : CompilerState) :
    Except JsError CompilerState :=
  let conditionInput := jsOrS (getInputValue node.id ("condition") conns st) ("false")
  let st := indent (writeLine st ("if " ++ conditionInput ++ " \x7b"))
  match compileConnSeq recur (connMapGet conns (node.id ++ "_then")) nodes st with
  | .error e => .error e
  | .ok st =>
    let st := dedent st
    let elseConnections := connMapGet conns (node.id ++ "_else")
    if 0 < elseConnections.length then
      match compileConnSeq recur elseConnections nodes
          (indent (writeLine st ("\x7d else \x7b"))) with
      | .error e => .error e
      | .ok st => .ok (writeLine (dedent st) ("\x7d"))
    else .ok (writeLine st ("\x7d"))

/-- `compileForEach`, abstracted over the recursive `compileNode`. -/
def compileForEach
    (recur : VisualScriptNode → CompilerState → Except JsError CompilerState)
    (node : VisualScriptNode) (conns : List VisualScriptConnection)
    (nodes : List VisualScriptNode) (st : CompilerState) :
    Except JsError CompilerState :=
  let arrayInput := getInputValue node.id ("array") conns st
  let itemVar := "item_" ++ sanitizeId node.id
  let st := indent (writeLine st ("for " ++ itemVar ++ " in " ++ tmplOpt arrayInput
    ++ ".iter() \x7b"))
  let st := setOutput st (node.id ++ "_item") itemVar
  match compileConnSeq recur (connMapGet conns (node.id ++ "_body")) nodes st with
  | .error e => .error e
  | .ok st => .ok (writeLine (dedent st) ("\x7d"))

/-- The `switch (node.type)` block of `compileNode`, abstracted over the
recursive call used by the branch/loop cases. -/
def compileNodeDispatch
    (recur : VisualScriptNode → CompilerState → Except JsError CompilerState)
    (node : VisualScriptNode) (conns : List VisualScriptConnection)
    (nodes : List VisualScriptNode) (st : CompilerState) :
    Except JsError CompilerState :=
  match node.type with
  | "event/update" => .ok (compileUpdateEvent node st)
  | "event/collision" => .ok (compileCollisionEvent node st)
  | "query/get_entities" => .ok (compileGetEntities node st)
  | "component/get" => .ok (compileGetComponent node conns st)
  | "component/set" => .ok (compileSetComponent node conns st)
  | "math/add" => .ok (compileMathOperation node conns ("+") st)
  | "math/multiply" => .ok (compileMathOperation node conns ("*") st)
  | "flow/if" => compileIfStatement recur node conns nodes st
  | "flow/foreach" => compileForEach recur node conns nodes st
  | _ => .ok (writeLine st ("// TODO: Implement node type " ++ node.type))

/-- `compileNode`: the comment line, the type dispatch, the trailing
blank line.  `fuel` stands for the JS call stack. -/
def compileNode (fuel : Nat) (node : VisualScriptNode)
    (conns : List VisualScriptConnection) (nodes : List VisualScriptNode)
    (st : CompilerState) : Except JsError CompilerState :=
  match fuel with
  | 0 => .error (.typeError ("Maximum call stack size exceeded"))
  | fuel + 1 =>
    match compileNodeDispatch (fun n s => compileNode fuel n conns nodes s) node conns
        nodes (writeLine st ("// Node: " ++ jsOrS node.data_label node.type)) with
    | .error e => .error e
    | .ok st => .ok (writeLine st (""))

/-- The `for (const node of sortedNodes)` loop of `compile`. -/
def compileNodeSeq (fuel : Nat) : List VisualScriptNode →
    List VisualScriptConnection → List VisualScriptNode → CompilerState →
    Except JsError CompilerState
  | [], _, _, st => .ok st
  | n :: rest, conns, nodes, st =>
    match compileNode fuel n conns nodes st with
    | .error e => .error e
    | .ok st' => compileNodeSeq fuel rest conns nodes st'

/-- `compile(script)` run on a compiler instance in state `st0`; returns
the instance state after the call together with the result (or the
thrown error).  On the unreachable fuel-exhaustion path the returned
state is the post-`reset` state. -/
def compileFrom (st0 : CompilerState) (script : VisualScript) :
    CompilerState × Except JsError CompiledSystem :=
  let st := reset st0
  match topologicalSort script.nodes script.connections with
  | .error e => (st, .error e)
  | .ok sortedNodes =>
    let st := writeLine st ("pub struct " ++ toRustName script.name ++ "System \x7b")
    let st := indent st
    let st := writeLine st ("// System state")
    let st := dedent st
    let st := writeLine st ("\x7d")
    let st := writeLine st ("")
    let st := writeLine st ("impl System for " ++ toRustName script.name ++ "System \x7b")
    let st := indent st
    let st := writeLine st
      ("fn execute(&mut self, world: &mut World, physics: &mut PhysicsWorld, dt: f32) \x7b")
    let st := indent st
    match compileNodeSeq (script.nodes.length + 1) sortedNodes script.connections
        script.nodes st with
    | .error e => (reset st0, .error e)
    | .ok st =>
      let st := dedent st
      let st := writeLine st ("\x7d")
      let st := dedent st
      let st := writeLine st ("\x7d")
      (st, .ok { name := script.name, code := renderOutput st,
                 dependencies := extractDependencies script.nodes })

/-! ### Concrete scripts used by the claim theorems -/

/-- Node `A` of the 2-node mutual dependency example. -/
def nodeA : VisualScriptNode := { id := "A", type := "math/add" }

/-- Node `B` of the 2-node mutual dependency example. -/
def nodeB : VisualScriptNode := { id := "B", type := "math/add" }

/-- `A` requires `B`'s output and vice versa. -/
def cycScript : VisualScript :=
  { id := "s1", name := "Cyc", nodes := [nodeA, nodeB],
    connections :=
      [{ id := "c1", source := "A", sourceHandle := "out", target := "B", targetHandle := "a" },
       { id := "c2", source := "B", sourceHandle := "out", target := "A", targetHandle := "a" }] }

/-- A `flow/if` node. -/
def nodeIf : VisualScriptNode := { id := "I", type := "flow/if" }

/-- A `math/add` node nested under the if's `then` handle. -/
def nodeM : VisualScriptNode := { id := "M", type := "math/add" }

/-- `M` hangs off the synthetic `I_then` handle. -/
def nestedScript : VisualScript :=
  { id := "s2", name := "S", nodes := [nodeIf, nodeM],
    connections :=
      [{ id := "t1", source := "I", sourceHandle := "then", target := "M", targetHandle := "exec" }] }

/-- A script with one connection whose source id names no node. -/
def ghostScript : VisualScript :=
  { id := "s3", name := "G", nodes := [{ id := "N", type := "event/update" }],
    connections :=
      [{ id := "gc", source := "ghost", sourceHandle := "out", target := "N", targetHandle := "x" }] }

/-- A script with a single `event/collision` node. -/
def colScript : VisualScript :=
  { id := "s4", name := "Col", nodes := [{ id := "C", type := "event/collision" }],
    connections := [] }

/-- Two distinct math nodes whose ids differ only in a character outside
the identifier class. -/
def shadowScript : VisualScript :=
  { id := "s5", name := "Sh",
    nodes := [{ id := "a.b", type := "math/add" }, { id := "a_b", type := "math/add" }],
    connections := [] }

/-- A straight-line two-node script (used as the witness for the
topological ordering theorem). -/
def chainScript : VisualScript :=
  { id := "s6", name := "Ch", nodes := [nodeA, nodeB],
    connections :=
      [{ id := "c1", source := "A", sourceHandle := "out", target := "B", targetHandle := "a" }] }

/-! ### Specification-side definitions used by the proofs -/

/-- The number of connections into `x` whose producer has not been
emitted yet — the quantity `topologicalSort`'s in-degree map tracks. -/
def remainingDeg (conns : List VisualScriptConnection) (done : List String)
    (x : String) : Nat :=
  conns.countP (fun c => c.target == x && !(done.contains c.source))

/-- `st'` extends `st`: the output grew by lines all indented at least to
`st`'s level, and the indent level did not drop below `st`'s. -/
def ExtendsFrom (st st' : CompilerState) : Prop :=
  st.indentLevel ≤ st'.indentLevel ∧
  ∃ Δ, st'.output = st.output ++ Δ ∧ ∀ p ∈ Δ, st.indentLevel ≤ p.1

/-! ### Claim theorems: concrete code-bug demonstrations -/

/-- Claim C1: on a 2-node mutual top-level dependency the code does NOT
raise any cycle error — `topologicalSort` returns an empty order and
`compile` returns a `CompiledSystem` whose code silently omits both
cyclic nodes (it is exactly the empty skeleton).  This evaluation
documents the divergence between the code and the claimed
`CycleDetectedError`. -/
theorem cycle_silently_dropped :
    topologicalSort cycScript.nodes cycScript.connections = .ok [] ∧
    (compileFrom initState cycScript).2 =
      .ok { name := "Cyc",
            code := "pub struct CycSystem \x7b\n    // System state\n\x7d\n\nimpl System for CycSystem \x7b\n    fn execute(&mut self, world: &mut World, physics: &mut PhysicsWorld, dt: f32) \x7b\n    \x7d\n\x7d",
            dependencies := [] } :=
  ⟨rfl, rfl⟩

/-- Claim C2: a node hanging off a synthetic `then` handle is compiled
twice — once recursively inside the `if` block and once more by the
top-level pass, because `topologicalSort` and the main loop range over
ALL nodes.  Its binding statement appears twice in the output,
contradicting emitted-exactly-once. -/
theorem nested_node_emitted_twice :
    (compileFrom initState nestedScript).2.isOk = true ∧
    ((compileFrom initState nestedScript).1.output.countP
      (fun p => p.2 == "let result_M = 0.0 + 0.0;")) = 2 :=
  ⟨rfl, rfl⟩

/-- Claim C3: a connection whose source id names no node makes `compile`
throw a plain `TypeError` from `graph.get(conn.source)!.push(...)` — not
a `MalformedGraphError`, and the offending connection id is not
reported. -/
theorem ghost_connection_type_error :
    (compileFrom initState ghostScript).2 =
      .error (.typeError ("Cannot read properties of undefined (reading push)")) :=
  rfl

/-- Claim C4: compiling a script with one `event/collision` node leaves
the indent level at 1 (not the initial 0): `compileCollisionEvent`
indents and opens the collision loop but no matching dedent or closing
brace is ever emitted — the output has four opening braces and only
three closing lines. -/
theorem collision_scope_unbalanced :
    (compileFrom initState colScript).1.indentLevel = 1 ∧
    ((compileFrom initState colScript).1.output.countP (fun p => p.2 == "\x7d")) = 3 ∧
    ((compileFrom initState colScript).1.output.countP
      (fun p => p.2.data.getLast? == some '\x7b')) = 4 :=
  ⟨rfl, rfl, rfl⟩

/-- Claim C6: `compile` is deterministic — the result does not depend on
the compiler instance's prior state (which `reset()` clears first), so
compiling the same script twice, in particular a second time on the same
instance, gives identical `code` and `dependencies`. -/
theorem compile_deterministic (script : VisualScript) (st1 st2 : CompilerState) :
    compileFrom st1 script = compileFrom st2 script ∧
    (compileFrom (compileFrom st1 script).1 script).2 = (compileFrom st1 script).2 :=
  ⟨rfl, rfl⟩

/-- Claim C6 witness at a concrete script and two distinct states. -/
theorem compile_deterministic_witness :
    compileFrom initState chainScript =
      compileFrom { indentLevel := 7, output := [(3, "junk")],
                    nodeOutputs := [("x", "y")] } chainScript ∧
    (compileFrom (compileFrom initState chainScript).1 chainScript).2 =
      (compileFrom initState chainScript).2 :=
  compile_deterministic chainScript initState
    { indentLevel := 7, output := [(3, "junk")], nodeOutputs := [("x", "y")] }

/-- Claim C10: sanitization is not injective — the distinct ids `a.b`
and `a_b` sanitize to the same identifier, so the two distinct math
nodes of `shadowScript` emit the very same binding line (`result_a_b`)
twice, the later shadowing the earlier. -/
theorem sanitizeId_not_injective :
    sanitizeId ("a.b") = sanitizeId ("a_b") ∧ ("a.b" : String) ≠ "a_b" ∧
    ((compileFrom initState shadowScript).1.output.countP
      (fun p => p.2 == "let result_a_b = 0.0 + 0.0;")) = 2 :=
  ⟨rfl, by decide, rfl⟩

/-- Claim C9: identifier sanitization is a pure per-character map —
character `i` of `sanitizeId s` is character `i` of `s` when that
character is in `[A-Za-z0-9_]` and `_` otherwise.  Being a function of
the id alone, every reference to the same node id yields the same
generated identifier. -/
theorem sanitizeId_per_char (s : String) (i : Nat)
    (h1 : i < (sanitizeId s).data.length) (h2 : i < s.data.length) :
    (sanitizeId s).data.get ⟨i, h1⟩ =
      (if isIdentChar (s.data.get ⟨i, h2⟩) then s.data.get ⟨i, h2⟩ else '_') := by
  simp only [sanitizeId, sanitizeChar, List.get_eq_getElem, List.getElem_map]

/-- Claim C9 witness: the space at index 4 of `node-1 x` becomes `_`,
and the whole id sanitizes to `node_1_x`. -/
theorem sanitizeId_per_char_witness :
    ((sanitizeId ("node-1 x")).data.get ⟨4, by decide⟩ =
      (if isIdentChar ((String.data ("node-1 x")).get ⟨4, by decide⟩)
        then (String.data ("node-1 x")).get ⟨4, by decide⟩ else '_')) ∧
    sanitizeId ("node-1 x") = "node_1_x" :=
  ⟨sanitizeId_per_char ("node-1 x") 4 (by decide) (by decide), rfl⟩

/-! ### Input resolution lemmas -/

/-- Every connection the grouped `connections.entries()` iteration
visits is one of the original connections. -/
theorem connMapEntries_subset (conns : List VisualScriptConnection) :
    ∀ c ∈ connMapEntries conns, c ∈ conns := by
  intro c hc
  simp only [connMapEntries, List.mem_flatMap, connMapGet, List.mem_filter] at hc
  obtain ⟨k, _, hmem, _⟩ := hc
  exact hmem

/-- When no connection feeds `(nodeId, inputName)`, `getInputValue`
resolves to null. -/
theorem getInputValue_eq_none (nodeId inputName : String)
    (conns : List VisualScriptConnection) (st : CompilerState)
    (h : ∀ c ∈ conns, ¬(c.target = nodeId ∧ c.targetHandle = inputName)) :
    getInputValue nodeId inputName conns st = none := by
  unfold getInputValue
  have hfind : (connMapEntries conns).find?
      (fun c => c.target == nodeId && c.targetHandle == inputName) = none := by
    apply List.find?_eq_none.mpr
    intro c hc
    have hmem := connMapEntries_subset conns c hc
    have := h c hmem
    simp only [Bool.and_eq_true, beq_iff_eq]
    intro hcontra
    exact this ⟨hcontra.1, hcontra.2⟩
  rw [hfind]

/-- Claim C7: a math node whose `a` and `b` inputs have no resolving
connection substitutes the literal `0.0` for both, emits exactly one
binding statement built from the node's operator, and binds the result
symbol `result_<sanitized id>` in the symbol table. -/
theorem compileMathOperation_defaults (node : VisualScriptNode)
    (conns : List VisualScriptConnection) (op : String) (st : CompilerState)
    (ha : ∀ c ∈ conns, ¬(c.target = node.id ∧ c.targetHandle = "a"))
    (hb : ∀ c ∈ conns, ¬(c.target = node.id ∧ c.targetHandle = "b")) :
    (compileMathOperation node conns op st).output =
      st.output ++ [(st.indentLevel,
        "let result_" ++ sanitizeId node.id ++ " = 0.0 " ++ op ++ " 0.0;")] ∧
    outputsGet (compileMathOperation node conns op st) node.id =
      some ("result_" ++ sanitizeId node.id) := by
  unfold compileMathOperation
  rw [getInputValue_eq_none _ _ _ _ ha, getInputValue_eq_none _ _ _ _ hb]
  refine ⟨?_, by simp [outputsGet, setOutput]⟩
  simp only [jsOrS, setOutput, writeLine]
  have : ("let " ++ ("result_" ++ sanitizeId node.id) ++ " = " ++ "0.0" ++ " " ++ op
      ++ " " ++ "0.0" ++ ";") =
      ("let result_" ++ sanitizeId node.id ++ " = 0.0 " ++ op ++ " 0.0;") := by
    apply String.ext
    simp [String.data_append]
  rw [this]

/-- Claim C7 witness: a `math/add` node `W` with no connections emits
`let result_W = 0.0 + 0.0;` and binds `result_W`. -/
theorem compileMathOperation_defaults_witness :
    ((compileMathOperation { id := "W", type := "math/add" } [] ("+") initState).output =
      initState.output ++ [(0, "let result_W = 0.0 + 0.0;")]) ∧
    outputsGet (compileMathOperation { id := "W", type := "math/add" } [] ("+") initState)
      (String.mk ['W']) = some ("result_W") :=
  compileMathOperation_defaults { id := "W", type := "math/add" } [] ("+") initState
    (by simp) (by simp)

/-! ### Output-extension invariants of the node compiler

Every successful node compilation appends lines indented at least to the
entry level and never drops the indent level below the entry level. -/


theorem extendsFrom_refl (st : CompilerState) : ExtendsFrom st st :=
  ⟨le_refl _, [], by simp, by simp⟩

theorem extendsFrom_trans {a b c : CompilerState}
    (h1 : ExtendsFrom a b) (h2 : ExtendsFrom b c) : ExtendsFrom a c := by
  obtain ⟨hl1, d1, ho1, hd1⟩ := h1
  obtain ⟨hl2, d2, ho2, hd2⟩ := h2
  refine ⟨le_trans hl1 hl2, d1 ++ d2, by rw [ho2, ho1, List.append_assoc], ?_⟩
  intro p hp
  rcases List.mem_append.mp hp with hp | hp
  · exact hd1 p hp
  · exact le_trans hl1 (hd2 p hp)

theorem extendsFrom_writeLine (st : CompilerState) (l : String) :
    ExtendsFrom st (writeLine st l) :=
  ⟨le_refl _, [(st.indentLevel, l)], by simp [writeLine], by simp⟩

theorem extendsFrom_indent (st : CompilerState) : ExtendsFrom st (indent st) :=
  ⟨by simp [indent], [], by simp [indent], by simp⟩

theorem extendsFrom_setOutput (st : CompilerState) (k v : String) :
    ExtendsFrom st (setOutput st k v) :=
  ⟨le_refl _, [], by simp [setOutput], by simp⟩

theorem compileConnSeq_ext
    (recur : VisualScriptNode → CompilerState → Except JsError CompilerState)
    (hrec : ∀ n s s', recur n s = .ok s' → ExtendsFrom s s') :
    ∀ (cs : List VisualScriptConnection) (nodes : List VisualScriptNode)
      (st st' : CompilerState),
      compileConnSeq recur cs nodes st = .ok st' → ExtendsFrom st st' := by
  intro cs
  induction cs with
  | nil =>
    intro nodes st st' h
    simp only [compileConnSeq] at h
    cases h
    exact extendsFrom_refl _
  | cons c rest ih =>
    intro nodes st st' h
    simp only [compileConnSeq] at h
    split at h
    · split at h
      · exact absurd h (by simp)
      · next st1 hr => exact extendsFrom_trans (hrec _ _ _ hr) (ih nodes st1 st' h)
    · exact ih nodes st st' h

theorem compileIfStatement_ext
    (recur : VisualScriptNode → CompilerState → Except JsError CompilerState)
    (hrec : ∀ n s s', recur n s = .ok s' → ExtendsFrom s s')
    (node : VisualScriptNode) (conns : List VisualScriptConnection)
    (nodes : List VisualScriptNode) (st st' : CompilerState)
    (h : compileIfStatement recur node conns nodes st = .ok st') :
    ExtendsFrom st st' := by
  simp only [compileIfStatement] at h
  split at h
  · exact absurd h (by simp)
  · next st2 hseq =>
    obtain ⟨hl, d1, ho, hb⟩ := compileConnSeq_ext recur hrec _ _ _ _ hseq
    simp only [indent, writeLine] at hl ho hb
    split at h
    · -- else branch present
      split at h
      · exact absurd h (by simp)
      · next st5 hseq2 =>
        obtain ⟨hl2, d2, ho2, hb2⟩ := compileConnSeq_ext recur hrec _ _ _ _ hseq2
        simp only [indent, writeLine, dedent] at hl2 ho2 hb2
        cases h
        refine ⟨?_, (st.indentLevel,
            "if " ++ jsOrS (getInputValue node.id ("condition") conns st) ("false")
              ++ " \x7b") :: (d1 ++ ((st2.indentLevel - 1, "\x7d else \x7b") :: (d2 ++
            [(st5.indentLevel - 1, "\x7d")]))), ?_, ?_⟩
        · simp only [writeLine, dedent]
          omega
        · simp only [writeLine, dedent]
          rw [ho2, ho]
          simp [List.append_assoc]
        · intro p hp
          simp only [List.mem_cons, List.mem_append, List.mem_singleton] at hp
          rcases hp with rfl | hp | rfl | hp | rfl | h0
          · simp
          · exact le_of_lt (lt_of_lt_of_le (by omega) (hb p hp))
          · simp only
            omega
          · have := hb2 p hp
            simp only at this ⊢
            omega
          · simp only
            omega
          · simp at h0
    · -- no else branch
      cases h
      refine ⟨?_, (st.indentLevel,
          "if " ++ jsOrS (getInputValue node.id ("condition") conns st) ("false")
            ++ " \x7b") :: (d1 ++ [(st2.indentLevel - 1, "\x7d")]), ?_, ?_⟩
      · simp only [writeLine, dedent]
        omega
      · simp only [writeLine, dedent]
        rw [ho]
        simp [List.append_assoc]
      · intro p hp
        simp only [List.mem_cons, List.mem_append, List.mem_singleton] at hp
        rcases hp with rfl | hp | rfl | h0
        · simp
        · exact le_of_lt (lt_of_lt_of_le (by omega) (hb p hp))
        · simp only
          omega
        · simp at h0

theorem compileForEach_ext
    (recur : VisualScriptNode → CompilerState → Except JsError CompilerState)
    (hrec : ∀ n s s', recur n s = .ok s' → ExtendsFrom s s')
    (node : VisualScriptNode) (conns : List VisualScriptConnection)
    (nodes : List VisualScriptNode) (st st' : CompilerState)
    (h : compileForEach recur node conns nodes st = .ok st') :
    ExtendsFrom st st' := by
  simp only [compileForEach] at h
  split at h
  · exact absurd h (by simp)
  · next st2 hseq =>
    obtain ⟨hl, d1, ho, hb⟩ := compileConnSeq_ext recur hrec _ _ _ _ hseq
    simp only [indent, writeLine, setOutput] at hl ho hb
    cases h
    refine ⟨?_, (st.indentLevel,
        "for " ++ ("item_" ++ sanitizeId node.id) ++ " in "
          ++ tmplOpt (getInputValue node.id ("array") conns st) ++ ".iter() \x7b")
        :: (d1 ++ [(st2.indentLevel - 1, "\x7d")]), ?_, ?_⟩
    · simp only [writeLine, dedent]
      omega
    · simp only [writeLine, dedent]
      rw [ho]
      simp [List.append_assoc]
    · intro p hp
      simp only [List.mem_cons, List.mem_append, List.mem_singleton] at hp
      rcases hp with rfl | hp | rfl | h0
      · simp
      · exact le_of_lt (lt_of_lt_of_le (by omega) (hb p hp))
      · simp only
        omega
      · simp at h0

theorem compileNodeDispatch_ext
    (recur : VisualScriptNode → CompilerState → Except JsError CompilerState)
    (hrec : ∀ n s s', recur n s = .ok s' → ExtendsFrom s s')
    (node : VisualScriptNode) (conns : List VisualScriptConnection)
    (nodes : List VisualScriptNode) (st st' : CompilerState)
    (h : compileNodeDispatch recur node conns nodes st = .ok st') :
    ExtendsFrom st st' := by
  simp only [compileNodeDispatch] at h
  split at h
  · cases h
    exact extendsFrom_setOutput _ _ _
  · cases h
    exact extendsFrom_trans (extendsFrom_writeLine _ _)
      (extendsFrom_trans (extendsFrom_indent _)
        (extendsFrom_trans (extendsFrom_setOutput _ _ _) (extendsFrom_setOutput _ _ _)))
  · cases h
    exact extendsFrom_trans (extendsFrom_writeLine _ _) (extendsFrom_setOutput _ _ _)
  · cases h
    exact extendsFrom_trans (extendsFrom_writeLine _ _) (extendsFrom_setOutput _ _ _)
  · cases h
    exact extendsFrom_writeLine _ _
  · cases h
    exact extendsFrom_trans (extendsFrom_writeLine _ _) (extendsFrom_setOutput _ _ _)
  · cases h
    exact extendsFrom_trans (extendsFrom_writeLine _ _) (extendsFrom_setOutput _ _ _)
  · exact compileIfStatement_ext recur hrec _ _ _ _ _ h
  · exact compileForEach_ext recur hrec _ _ _ _ _ h
  · cases h
    exact extendsFrom_writeLine _ _

theorem compileNode_ext :
    ∀ (fuel : Nat) (node : VisualScriptNode) (conns : List VisualScriptConnection)
      (nodes : List VisualScriptNode) (st st' : CompilerState),
      compileNode fuel node conns nodes st = .ok st' → ExtendsFrom st st' := by
  intro fuel
  induction fuel with
  | zero =>
    intro node conns nodes st st' h
    exact absurd h (by simp [compileNode])
  | succ n ih =>
    intro node conns nodes st st' h
    simp only [compileNode] at h
    split at h
    · exact absurd h (by simp)
    · next st2 hmid =>
      cases h
      exact extendsFrom_trans (extendsFrom_writeLine _ _)
        (extendsFrom_trans
          (compileNodeDispatch_ext _ (fun n s s' hr => ih n conns nodes s s' hr) _ _ _ _ _ hmid)
          (extendsFrom_writeLine _ _))

/-- The opening line of an `if` block is never the `else` opener,
whatever the condition text is. -/
theorem ifline_ne_elseline (cond : String) :
    ("if " ++ cond ++ " \x7b") ≠ ("\x7d else \x7b") := by
  intro h
  have h2 := congrArg String.data h
  simp only [String.data_append] at h2
  simp at h2

/-- Claim C8: for a `flow/if` node, the compilation appends an
else-opening line if and only if some connection leaves the synthetic
`<id>_else` handle (nested emissions sit at strictly deeper indent
levels, so the node's own else line is identified by its entry level);
and an unresolved `condition` input defaults to the literal `false` in
the opening line. -/
theorem compileIfStatement_else_blocks
    (fuel : Nat) (node : VisualScriptNode) (conns : List VisualScriptConnection)
    (nodes : List VisualScriptNode) (st st' : CompilerState)
    (h : compileIfStatement (fun n s => compileNode fuel n conns nodes s)
          node conns nodes st = .ok st') :
    ∃ Δ, st'.output = st.output ++ Δ ∧
      (connMapGet conns (node.id ++ "_else") = [] →
        (st.indentLevel, ("\x7d else \x7b" : String)) ∉ Δ) ∧
      (connMapGet conns (node.id ++ "_else") ≠ [] →
        ∃ l, st.indentLevel ≤ l ∧ (l, ("\x7d else \x7b" : String)) ∈ Δ) ∧
      ((∀ c ∈ conns, ¬(c.target = node.id ∧ c.targetHandle = "condition")) →
        Δ.head? = some (st.indentLevel, "if false \x7b")) := by
  have hrec : ∀ n s s', (fun n s => compileNode fuel n conns nodes s) n s = .ok s' →
      ExtendsFrom s s' := fun n s s' hr => compileNode_ext fuel n conns nodes s s' hr
  have hcondline : (∀ c ∈ conns, ¬(c.target = node.id ∧ c.targetHandle = "condition")) →
      ("if " ++ jsOrS (getInputValue node.id ("condition") conns st) ("false") ++ " \x7b")
        = "if false \x7b" := by
    intro hc
    rw [getInputValue_eq_none _ _ _ _ hc]
    apply String.ext
    simp [jsOrS, String.data_append]
  simp only [compileIfStatement] at h
  split at h
  · exact absurd h (by simp)
  · next st2 hseq =>
    obtain ⟨hl, d1, ho, hb⟩ := compileConnSeq_ext _ hrec _ _ _ _ hseq
    simp only [indent, writeLine] at hl ho hb
    split at h
    · -- else connections present
      next hlen =>
      split at h
      · exact absurd h (by simp)
      · next st5 hseq2 =>
        obtain ⟨hl2, d2, ho2, hb2⟩ := compileConnSeq_ext _ hrec _ _ _ _ hseq2
        simp only [indent, writeLine, dedent] at hl2 ho2 hb2
        cases h
        refine ⟨(st.indentLevel,
            "if " ++ jsOrS (getInputValue node.id ("condition") conns st) ("false")
              ++ " \x7b") :: (d1 ++ ((st2.indentLevel - 1, "\x7d else \x7b") :: (d2 ++
            [(st5.indentLevel - 1, "\x7d")]))), ?_, ?_, ?_, ?_⟩
        · simp only [writeLine, dedent]
          rw [ho2, ho]
          simp [List.append_assoc]
        · intro hnil
          rw [hnil] at hlen
          simp at hlen
        · intro _
          exact ⟨st2.indentLevel - 1, by omega, by simp⟩
        · intro hc
          rw [hcondline hc]
          simp
    · -- no else connections
      next hlen =>
      have hnil : connMapGet conns (node.id ++ "_else") = [] := by
        cases hg : connMapGet conns (node.id ++ "_else") with
        | nil => rfl
        | cons a l => rw [hg] at hlen; simp at hlen
      cases h
      refine ⟨(st.indentLevel,
          "if " ++ jsOrS (getInputValue node.id ("condition") conns st) ("false")
            ++ " \x7b") :: (d1 ++ [(st2.indentLevel - 1, "\x7d")]), ?_, ?_, ?_, ?_⟩
      · simp only [writeLine, dedent]
        rw [ho]
        simp [List.append_assoc]
      · intro _
        intro hmem
        simp only [List.mem_cons, List.mem_append, List.mem_singleton] at hmem
        rcases hmem with heq | hmem | heq | h0
        · exact ifline_ne_elseline _ (congrArg Prod.snd heq).symm
        · have h1 : st.indentLevel + 1 ≤ st.indentLevel := by simpa using hb _ hmem
          omega
        · have h2 : ("\x7d else \x7b" : String) = "\x7d" := congrArg Prod.snd heq
          exact absurd h2 (by decide)
        · simp at h0
      · intro hne
        exact absurd hnil hne
      · intro hc
        rw [hcondline hc]
        simp

/-- Claim C8 witness: a concrete `flow/if` node with no connections
emits only `if false \x7b` / `\x7d`. -/
theorem compileIfStatement_else_blocks_witness :
    ∃ Δ, ({ indentLevel := 0, output := [((0 : Int), "if false \x7b"), (0, "\x7d")],
            nodeOutputs := [] } : CompilerState).output = initState.output ++ Δ ∧
      (connMapGet [] (String.append ("I") ("_else")) = [] →
        ((initState.indentLevel, ("\x7d else \x7b" : String)) ∉ Δ)) ∧
      (connMapGet [] (String.append ("I") ("_else")) ≠ [] →
        ∃ l, initState.indentLevel ≤ l ∧ (l, ("\x7d else \x7b" : String)) ∈ Δ) ∧
      ((∀ c ∈ ([] : List VisualScriptConnection),
          ¬(c.target = "I" ∧ c.targetHandle = "condition")) →
        Δ.head? = some (initState.indentLevel, "if false \x7b")) :=
  compileIfStatement_else_blocks 1 { id := "I", type := "flow/if" } [] [] initState
    { indentLevel := 0, output := [((0 : Int), "if false \x7b"), (0, "\x7d")],
      nodeOutputs := [] } rfl

/-! ### Kahn's algorithm: ordering correctness -/

/-- `map.set` then `map.get`: the set key reads back the new value, any
other key is unchanged. -/
theorem jsMapGet_set {α : Type} (m : List (String × α)) (k : String) (v : α) (k' : String) :
    jsMapGet (jsMapSet m k v) k' = if k' = k then some v else jsMapGet m k' := by
  unfold jsMapSet jsMapGet
  by_cases hany : m.any (fun p => p.1 == k) = true
  · rw [if_pos hany, List.find?_map]
    by_cases h : k' = k
    · subst h
      have hpred : ((fun p : String × α => p.1 == k') ∘
          (fun p => if p.1 == k' then (k', v) else p)) = (fun p => p.1 == k') := by
        funext q
        by_cases hq : q.1 = k' <;> simp [hq]
      rw [hpred, if_pos rfl]
      obtain ⟨q, hq, hqk⟩ := List.any_eq_true.mp hany
      cases hf : m.find? (fun p => p.1 == k') with
      | none => exact absurd hqk (by simpa using List.find?_eq_none.mp hf q hq)
      | some q' =>
        have hk : q'.1 = k' := by simpa using List.find?_some hf
        simp [hk]
    · have hpred : ((fun p : String × α => p.1 == k') ∘
          (fun p => if p.1 == k then (k, v) else p)) = (fun p => p.1 == k') := by
        funext q
        by_cases hq : q.1 = k
        · have h1 : (k == k') = false := beq_eq_false_iff_ne.mpr (fun he => h he.symm)
          have h2 : (q.1 == k') = false := beq_eq_false_iff_ne.mpr (by
            rw [hq]; exact fun he => h he.symm)
          simp [hq, h1, h2]
        · simp [hq]
      rw [hpred, if_neg h]
      cases hf : m.find? (fun p => p.1 == k') with
      | none => rfl
      | some q' =>
        have hk : q'.1 = k' := by simpa using List.find?_some hf
        have hne : ¬ q'.1 = k := by rw [hk]; exact h
        simp [hne]
  · rw [if_neg hany]
    have hnone : m.find? (fun p => p.1 == k) = none := by
      cases hf : m.find? (fun p => p.1 == k) with
      | none => rfl
      | some q =>
        exact absurd (List.any_eq_true.mpr
          ⟨q, List.mem_of_find?_eq_some hf, List.find?_some hf⟩) hany
    by_cases h : k' = k
    · subst h
      rw [if_pos rfl, List.find?_append, hnone]
      simp [List.find?_cons]
    · rw [if_neg h, List.find?_append]
      cases hf : m.find? (fun p => p.1 == k') with
      | none =>
        simp only [Option.none_or]
        have hkk : (k == k') = false := beq_eq_false_iff_ne.mpr (fun he => h he.symm)
        simp [List.find?_cons, hkk]
      | some q => simp

/-- Setting a present key (the in-place update branch) keeps the key
list unchanged. -/
theorem jsMapSet_keys_of_any {α : Type} (m : List (String × α)) (k : String) (v : α)
    (hany : m.any (fun p => p.1 == k) = true) :
    (jsMapSet m k v).map (fun p => p.1) = m.map (fun p => p.1) := by
  unfold jsMapSet
  rw [if_pos hany, List.map_map]
  apply List.map_congr_left
  intro p _
  by_cases hp : p.1 = k <;> simp [hp]

/-- Setting a key that `get` already resolves keeps the key list. -/
theorem jsMapSet_keys_of_isSome {α : Type} (m : List (String × α)) (k : String) (v : α)
    (h : (jsMapGet m k).isSome) :
    (jsMapSet m k v).map (fun p => p.1) = m.map (fun p => p.1) := by
  apply jsMapSet_keys_of_any
  unfold jsMapGet at h
  cases hf : m.find? (fun p => p.1 == k) with
  | none => rw [hf] at h; simp at h
  | some q =>
    have h0 := List.find?_some hf
    exact List.any_eq_true.mpr ⟨q, List.mem_of_find?_eq_some hf, h0⟩

/-- `map.set` preserves distinctness of keys. -/
theorem jsMapSet_keys_nodup {α : Type} (m : List (String × α)) (k : String) (v : α)
    (h : (m.map (fun p => p.1)).Nodup) :
    ((jsMapSet m k v).map (fun p => p.1)).Nodup := by
  by_cases hany : m.any (fun p => p.1 == k) = true
  · rw [jsMapSet_keys_of_any m k v hany]
    exact h
  · unfold jsMapSet
    rw [if_neg hany, List.map_append]
    refine List.Nodup.append h (by simp) ?_
    intro x hx hx2
    simp only [List.map_cons, List.map_nil, List.mem_singleton] at hx2
    subst hx2
    obtain ⟨p, hp, hpk⟩ := List.mem_map.mp hx
    exact hany (List.any_eq_true.mpr ⟨p, hp, by simp [hpk]⟩)

/-- With distinct keys, any stored pair is what `get` returns. -/
theorem jsMapGet_of_mem_of_nodupKeys {α : Type} (m : List (String × α)) (k : String) (v : α)
    (hmem : (k, v) ∈ m) (hnd : (m.map (fun p => p.1)).Nodup) :
    jsMapGet m k = some v := by
  induction m with
  | nil => simp at hmem
  | cons p rest ih =>
    rcases List.mem_cons.mp hmem with rfl | hmem'
    · simp [jsMapGet, List.find?_cons]
    · have hk : k ∈ rest.map (fun p => p.1) :=
        List.mem_map.mpr ⟨(k, v), hmem', rfl⟩
      have hp : ¬ p.1 = k := by
        intro he
        rw [List.map_cons, List.nodup_cons] at hnd
        exact hnd.1 (he ▸ hk)
      have hnd' : (rest.map (fun p => p.1)).Nodup := by
        rw [List.map_cons, List.nodup_cons] at hnd
        exact hnd.2
      have := ih hmem' hnd'
      simp only [jsMapGet, List.find?_cons, beq_eq_false_iff_ne.mpr hp] at this ⊢
      exact this

/-- What `get` returns is stored in the list. -/
theorem jsMapGet_mem {α : Type} (m : List (String × α)) (k : String) (v : α)
    (h : jsMapGet m k = some v) : (k, v) ∈ m := by
  unfold jsMapGet at h
  cases hf : m.find? (fun p => p.1 == k) with
  | none => rw [hf] at h; simp at h
  | some q =>
    rw [hf] at h
    have h0 := List.find?_some hf
    have h1 : q.1 = k := by simpa using h0
    have h2 : q.2 = v := by simpa using h
    have := List.mem_of_find?_eq_some hf
    rwa [show q = (k, v) from Prod.ext h1 h2] at this

/-- The `for (const node of nodes)` initialisation loops of
`topologicalSort`: every node id maps to the seed value. -/
theorem initFold_get {α : Type} (v0 : α) (x : String) :
    ∀ (ns : List VisualScriptNode) (m : List (String × α)),
      jsMapGet (ns.foldl (fun g n => jsMapSet g n.id v0) m) x =
        if x ∈ ns.map (fun n => n.id) then some v0 else jsMapGet m x := by
  intro ns
  induction ns with
  | nil => intro m; simp
  | cons n rest ih =>
    intro m
    simp only [List.foldl_cons]
    rw [ih (jsMapSet m n.id v0), jsMapGet_set]
    by_cases h1 : x ∈ rest.map (fun n => n.id)
    · simp [h1]
    · by_cases h2 : x = n.id <;> simp [h1, h2]

/-- The initialisation loops produce maps with distinct keys. -/
theorem initFold_keys_nodup {α : Type} (v0 : α) :
    ∀ (ns : List VisualScriptNode) (m : List (String × α)),
      (m.map (fun p => p.1)).Nodup →
      ((ns.foldl (fun g n => jsMapSet g n.id v0) m).map (fun p => p.1)).Nodup := by
  intro ns
  induction ns with
  | nil => intro m h; simpa using h
  | cons n rest ih =>
    intro m h
    simp only [List.foldl_cons]
    exact ih _ (jsMapSet_keys_nodup m n.id v0 h)

/-- The connection loop of `topologicalSort`: when every connection
endpoint has a map entry, the build succeeds, each id's adjacency list
gains its out-neighbours in connection order, each id's in-degree gains
its number of incoming connections, and the in-degree key list is
unchanged. -/
theorem buildAdj_ok :
    ∀ (cs : List VisualScriptConnection) (g : List (String × List String))
      (d : List (String × Int)),
      (∀ c ∈ cs, (jsMapGet g c.source).isSome) →
      (∀ c ∈ cs, (jsMapGet d c.target).isSome) →
      ∃ g' d', buildAdj cs g d = .ok (g', d') ∧
        (∀ x, jsMapGet g' x = (jsMapGet g x).map
          (fun l => l ++ (cs.filter (fun c => c.source == x)).map (fun c => c.target))) ∧
        (∀ x, jsMapGet d' x = (jsMapGet d x).map
          (fun v => v + ((cs.countP (fun c => c.target == x) : Nat) : Int))) ∧
        d'.map (fun p => p.1) = d.map (fun p => p.1) := by
  intro cs
  induction cs with
  | nil =>
    intro g d _ _
    exact ⟨g, d, rfl, by simp, by simp, rfl⟩
  | cons c rest ih =>
    intro g d hsrc htgt
    obtain ⟨lst, hlst⟩ := Option.isSome_iff_exists.mp (hsrc c (by simp))
    obtain ⟨dv, hdv⟩ := Option.isSome_iff_exists.mp (htgt c (by simp))
    have hstep : buildAdj (c :: rest) g d =
        buildAdj rest (jsMapSet g c.source (lst ++ [c.target]))
          (jsMapSet d c.target ((jsMapGet d c.target).getD 0 + 1)) := by
      simp only [buildAdj, hlst]
    obtain ⟨g', d', hres, hgc, hdc, hkeys⟩ :=
      ih (jsMapSet g c.source (lst ++ [c.target]))
        (jsMapSet d c.target ((jsMapGet d c.target).getD 0 + 1))
        (fun c' hc' => by
          rw [jsMapGet_set]
          by_cases h : c'.source = c.source
          · simp [h]
          · rw [if_neg h]; exact hsrc c' (by simp [hc']))
        (fun c' hc' => by
          rw [jsMapGet_set]
          by_cases h : c'.target = c.target
          · simp [h]
          · rw [if_neg h]; exact htgt c' (by simp [hc']))
    refine ⟨g', d', by rw [hstep]; exact hres, ?_, ?_, ?_⟩
    · intro x
      rw [hgc x, jsMapGet_set]
      by_cases h : x = c.source
      · subst h
        rw [if_pos rfl, hlst]
        simp [List.filter_cons, List.append_assoc]
      · rw [if_neg h]
        have hcx : (c.source == x) = false := beq_eq_false_iff_ne.mpr (fun he => h he.symm)
        simp [List.filter_cons, hcx]
    · intro x
      rw [hdc x, jsMapGet_set]
      by_cases h : x = c.target
      · subst h
        rw [if_pos rfl, hdv]
        simp only [List.countP_cons, Option.getD_some]
        simp
        ring
      · rw [if_neg h]
        have hcx : (c.target == x) = false := beq_eq_false_iff_ne.mpr (fun he => h he.symm)
        simp only [List.countP_cons, hcx]
        simp
    · rw [hkeys]
      exact jsMapSet_keys_of_isSome d c.target _ (htgt c (by simp))

/-- `List.contains` agrees with membership. -/
theorem contains_true_iff (l : List String) (s : String) :
    l.contains s = true ↔ s ∈ l := by
  simp

/-- Marking `id` as emitted accounts exactly for the connections out of
`id`: the remaining degree of `x` drops by the number of connections
from `id` to `x`. -/
theorem remainingDeg_append (conns : List VisualScriptConnection) (done : List String)
    (id x : String) (hid : id ∉ done) :
    remainingDeg conns done x =
      remainingDeg conns (done ++ [id]) x +
        conns.countP (fun c => c.target == x && c.source == id) := by
  induction conns with
  | nil => simp [remainingDeg]
  | cons c rest ih =>
    simp only [remainingDeg, List.countP_cons] at ih ⊢
    have hsplit : ∀ s : String, (done ++ [id]).contains s = true ↔ (s ∈ done ∨ s = id) := by
      intro s
      rw [contains_true_iff]
      simp
    by_cases ht : c.target = x
    · by_cases hdone : c.source ∈ done
      · have h1 : done.contains c.source = true := (contains_true_iff _ _).mpr hdone
        have h2 : (done ++ [id]).contains c.source = true := (hsplit _).mpr (Or.inl hdone)
        have h3 : (c.source == id) = false := beq_eq_false_iff_ne.mpr (by
          intro he; exact hid (he ▸ hdone))
        simp only [ht, h1, h2, h3]
        simpa using ih
      · have h1 : done.contains c.source = false := by
          cases hc : done.contains c.source with
          | true => exact absurd ((contains_true_iff _ _).mp hc) hdone
          | false => rfl
        by_cases hsid : c.source = id
        · have h2 : (done ++ [id]).contains c.source = true := (hsplit _).mpr (Or.inr hsid)
          have h3 : (c.source == id) = true := beq_iff_eq.mpr hsid
          simp only [ht, h1, h2, h3]
          rw [ih]
          simp
          omega
        · have h2 : (done ++ [id]).contains c.source = false := by
            cases hc : (done ++ [id]).contains c.source with
            | true =>
              rcases (hsplit _).mp hc with hmem | heq
              · exact absurd hmem hdone
              · exact absurd heq hsid
            | false => rfl
          have h3 : (c.source == id) = false := beq_eq_false_iff_ne.mpr hsid
          simp only [ht, h1, h2, h3]
          rw [ih]
          simp
          omega
    · have h3 : (c.target == x) = false := beq_eq_false_iff_ne.mpr ht
      simp only [h3, Bool.false_and]
      simpa using ih

/-- Emitting more producers never increases a remaining degree. -/
theorem remainingDeg_mono (conns : List VisualScriptConnection) (done : List String)
    (id x : String) :
    remainingDeg conns (done ++ [id]) x ≤ remainingDeg conns done x := by
  apply List.countP_mono_left
  intro c _ hc
  simp only [Bool.and_eq_true, Bool.not_eq_true'] at hc ⊢
  refine ⟨hc.1, ?_⟩
  cases hd : done.contains c.source with
  | false => rfl
  | true =>
    have : (done ++ [id]).contains c.source = true := by
      rw [contains_true_iff] at hd ⊢
      simp [hd]
    rw [this] at hc
    exact absurd hc.2 (by simp)

/-- Counting a target in `id`'s adjacency list counts the connections
from `id` to `x`. -/
theorem count_targets (cs : List VisualScriptConnection) (id x : String) :
    ((cs.filter (fun c => c.source == id)).map (fun c => c.target)).count x =
      cs.countP (fun c => c.target == x && c.source == id) := by
  rw [List.count_eq_countP, List.countP_map, List.countP_filter]
  apply List.countP_congr
  intro c _
  rfl

/-- The neighbour loop of one Kahn iteration: every neighbour's stored
degree drops by its multiplicity, and the queue gains exactly (and once
each) the neighbours whose stored degree equalled that multiplicity —
the ones hitting zero. -/
theorem processNeighbors_spec :
    ∀ (nbs : List String) (d : List (String × Int)) (q : List String),
      (∀ x ∈ nbs, ∃ v : Int, jsMapGet d x = some v ∧ ((nbs.count x : Int) ≤ v)) →
      ∃ d' newQ, processNeighbors nbs d q = (d', q ++ newQ) ∧
        (∀ x, jsMapGet d' x = (jsMapGet d x).map (fun v => v - (nbs.count x : Int))) ∧
        (∀ x, x ∈ newQ ↔ (x ∈ nbs ∧ jsMapGet d x = some ((nbs.count x : Int)))) ∧
        newQ.Nodup ∧ d'.map (fun p => p.1) = d.map (fun p => p.1) := by
  intro nbs
  induction nbs with
  | nil =>
    intro d q _
    exact ⟨d, [], by simp [processNeighbors], by simp, by simp, by simp, rfl⟩
  | cons nb rest ih =>
    intro d q hkeys
    obtain ⟨v, hv, hcnt⟩ := hkeys nb (by simp)
    have hvpos : (1 : Int) ≤ v := by
      have : (1 : Int) ≤ ((nb :: rest).count nb : Int) := by
        have := List.count_pos_iff.mpr (List.mem_cons_self nb rest)
        omega
      omega
    have hstep : processNeighbors (nb :: rest) d q =
        processNeighbors rest (jsMapSet d nb (v - 1))
          (if v - 1 == 0 then q ++ [nb] else q) := by
      simp only [processNeighbors, hv, Option.getD_some]
    have hkeys' : ∀ x ∈ rest, ∃ w : Int,
        jsMapGet (jsMapSet d nb (v - 1)) x = some w ∧ ((rest.count x : Int) ≤ w) := by
      intro x hx
      rw [jsMapGet_set]
      by_cases h : x = nb
      · refine ⟨v - 1, by rw [if_pos h], ?_⟩
        have hc : (nb :: rest).count nb = rest.count nb + 1 := by
          simp [List.count_cons]
        rw [h]
        omega
      · obtain ⟨w, hw, hwc⟩ := hkeys x (by simp [hx])
        refine ⟨w, by rw [if_neg h]; exact hw, ?_⟩
        have : (nb :: rest).count x = rest.count x := by
          simp [List.count_cons, h]
        omega
    obtain ⟨d', newQr, hres, hget, hmem, hnodup, hkeysEq⟩ :=
      ih (jsMapSet d nb (v - 1)) (if v - 1 == 0 then q ++ [nb] else q) hkeys'
    by_cases hz : v = 1
    · -- nb's degree hits zero at its (single) occurrence
      have hif : (if v - 1 == 0 then q ++ [nb] else q) = q ++ [nb] := by
        have hyes : (v - 1 == 0) = true := by
          simp only [beq_iff_eq]
          omega
        rw [if_pos hyes]
      have hnbrest : nb ∉ rest := by
        intro hmemr
        have h2 : (2 : Int) ≤ ((nb :: rest).count nb : Int) := by
          have : 1 ≤ rest.count nb := List.count_pos_iff.mpr hmemr
          have : (nb :: rest).count nb = rest.count nb + 1 := by simp [List.count_cons]
          omega
        omega
      refine ⟨d', nb :: newQr, ?_, ?_, ?_, ?_, ?_⟩
      · rw [hif] at hres
        rw [hstep, hif, hres]
        simp
      · intro x
        rw [hget x, jsMapGet_set]
        by_cases h : x = nb
        · subst h
          rw [if_pos rfl, hv]
          have hcnb : rest.count x = 0 := List.count_eq_zero.mpr hnbrest
          have : (x :: rest).count x = rest.count x + 1 := by simp [List.count_cons]
          simp only [Option.map_some']
          congr 1
          omega
        · rw [if_neg h]
          have : (nb :: rest).count x = rest.count x := by simp [List.count_cons, h]
          rw [this]
      · intro x
        constructor
        · intro hx
          rcases List.mem_cons.mp hx with rfl | hx'
          · refine ⟨by simp, ?_⟩
            rw [hv]
            have hcnb : rest.count x = 0 := List.count_eq_zero.mpr hnbrest
            have : (x :: rest).count x = rest.count x + 1 := by simp [List.count_cons]
            rw [this, hcnb, hz]
            simp
          · have := (hmem x).mp hx'
            rw [jsMapGet_set] at this
            by_cases h : x = nb
            · exact absurd (h ▸ this.1) hnbrest
            · rw [if_neg h] at this
              have hc : (nb :: rest).count x = rest.count x := by
                simp [List.count_cons, h]
              exact ⟨by simp [this.1], by rw [hc]; exact this.2⟩
        · intro ⟨hxmem, hxval⟩
          rcases List.mem_cons.mp hxmem with rfl | hx'
          · simp
          · right
            apply (hmem x).mpr
            rw [jsMapGet_set]
            by_cases h : x = nb
            · exact absurd (h ▸ hx') hnbrest
            · rw [if_neg h]
              have hc : (nb :: rest).count x = rest.count x := by
                simp [List.count_cons, h]
              rw [hc] at hxval
              exact ⟨hx', hxval⟩
      · refine List.nodup_cons.mpr ⟨?_, hnodup⟩
        intro hx
        exact hnbrest ((hmem nb).mp hx).1
      · rw [hkeysEq]
        exact jsMapSet_keys_of_isSome d nb _ (by simp [hv])
    · -- nb's degree does not hit zero here
      have hif : (if v - 1 == 0 then q ++ [nb] else q) = q := by
        have hne : ¬ ((v - 1 == 0) = true) := by
          simp only [beq_iff_eq]
          omega
        rw [if_neg hne]
      refine ⟨d', newQr, ?_, ?_, ?_, hnodup, ?_⟩
      · rw [hif] at hres
        rw [hstep, hif]
        exact hres
      · intro x
        rw [hget x, jsMapGet_set]
        by_cases h : x = nb
        · subst h
          rw [if_pos rfl, hv]
          have : (x :: rest).count x = rest.count x + 1 := by simp [List.count_cons]
          simp only [Option.map_some']
          congr 1
          omega
        · rw [if_neg h]
          have : (nb :: rest).count x = rest.count x := by simp [List.count_cons, h]
          rw [this]
      · intro x
        rw [hmem x, jsMapGet_set]
        by_cases h : x = nb
        · subst h
          rw [if_pos rfl]
          have hc : (x :: rest).count x = rest.count x + 1 := by simp [List.count_cons]
          constructor
          · intro ⟨hxr, hval⟩
            have : v - 1 = (rest.count x : Int) := by
              have := Option.some.inj hval
              omega
            refine ⟨by simp, ?_⟩
            rw [hv, hc]
            congr 1
            omega
          · intro ⟨hxm, hval⟩
            rw [hv, hc] at hval
            have hveq : v = (rest.count x : Int) + 1 := by
              have := Option.some.inj hval
              omega
            have hrpos : 0 < rest.count x := by
              by_contra hcon
              have : rest.count x = 0 := by omega
              rw [this] at hveq
              exact hz (by omega)
            refine ⟨List.count_pos_iff.mp hrpos, ?_⟩
            congr 1
            omega
        · rw [if_neg h]
          have hc : (nb :: rest).count x = rest.count x := by simp [List.count_cons, h]
          rw [hc]
          constructor
          · intro ⟨hxr, hval⟩
            exact ⟨by simp [hxr], hval⟩
          · intro ⟨hxm, hval⟩
            rcases List.mem_cons.mp hxm with rfl | hx'
            · exact absurd rfl h
            · exact ⟨hx', hval⟩
      · rw [hkeysEq]
        exact jsMapSet_keys_of_isSome d nb _ (by simp [hv])

/-- A present id resolves in the node map to a node carrying that id. -/
theorem nodesMapGet_of_mem (nodes : List VisualScriptNode) (x : String)
    (h : x ∈ nodes.map (fun n => n.id)) :
    ∃ n, nodesMapGet nodes x = some n ∧ n.id = x := by
  unfold nodesMapGet
  cases hg : (nodes.filter (fun n => n.id == x)).getLast? with
  | none =>
    obtain ⟨n, hn, hid⟩ := List.mem_map.mp h
    have hmem : n ∈ nodes.filter (fun n => n.id == x) :=
      List.mem_filter.mpr ⟨hn, by simp [hid]⟩
    rw [List.getLast?_eq_none_iff.mp hg] at hmem
    simp at hmem
  | some n =>
    have hmem := List.mem_of_mem_getLast? hg
    have := (List.mem_filter.mp hmem).2
    exact ⟨n, rfl, by simpa using this⟩

/-- Appending a fresh element puts it at index `length`. -/
theorem indexOf_append_self (l : List String) (x : String) (h : x ∉ l) :
    (l ++ [x]).indexOf x = l.length := by
  induction l with
  | nil => simp [List.indexOf_cons_self]
  | cons a as ih =>
    have hne : a ≠ x := by
      intro he
      exact h (by simp [he])
    have hx : x ∉ as := fun hm => h (by simp [hm])
    simp only [List.cons_append, List.length_cons]
    rw [List.indexOf_cons_ne _ (by exact hne), ih hx]

/-- The Kahn loop invariant: starting from a state where emitted ids
and queued ids are distinct, the in-degree map tracks the remaining
degrees, every emitted or queued id has remaining degree zero, and every
connection into an emitted id comes from an earlier emitted id — the
result keeps distinct ids drawn from the node list and satisfies the
source-before-target ordering for every connection whose target was
emitted. -/
theorem kahnLoop_inv
    (nodes : List VisualScriptNode) (conns : List VisualScriptConnection)
    (g : List (String × List String))
    (htgt : ∀ c ∈ conns, c.target ∈ nodes.map (fun n => n.id))
    (hg : ∀ x ∈ nodes.map (fun n => n.id), jsMapGet g x =
        some ((conns.filter (fun c => c.source == x)).map (fun c => c.target))) :
    ∀ (fuel : Nat) (d : List (String × Int)) (queue : List String)
      (sorted res : List VisualScriptNode),
      kahnLoop nodes g fuel d queue sorted = .ok res →
      ((sorted.map (fun n => n.id) ++ queue).Nodup) →
      (∀ x ∈ nodes.map (fun n => n.id),
        jsMapGet d x = some ((remainingDeg conns (sorted.map (fun n => n.id)) x : Int))) →
      (∀ x ∈ sorted.map (fun n => n.id) ++ queue,
        remainingDeg conns (sorted.map (fun n => n.id)) x = 0) →
      (∀ c ∈ conns, c.target ∈ sorted.map (fun n => n.id) →
        c.source ∈ sorted.map (fun n => n.id) ∧
        (sorted.map (fun n => n.id)).indexOf c.source <
          (sorted.map (fun n => n.id)).indexOf c.target) →
      (∀ x ∈ sorted.map (fun n => n.id), x ∈ nodes.map (fun n => n.id)) →
      (∀ x ∈ queue, x ∈ nodes.map (fun n => n.id)) →
      ((res.map (fun n => n.id)).Nodup ∧
       (∀ x ∈ res.map (fun n => n.id), x ∈ nodes.map (fun n => n.id)) ∧
       (∀ c ∈ conns, c.target ∈ res.map (fun n => n.id) →
         c.source ∈ res.map (fun n => n.id) ∧
         (res.map (fun n => n.id)).indexOf c.source <
           (res.map (fun n => n.id)).indexOf c.target)) := by
  intro fuel
  induction fuel with
  | zero =>
    intro d queue sorted res h _ _ _ _ _ _
    exact absurd h (by simp [kahnLoop])
  | succ n ih =>
    intro d queue sorted res h inv1 inv2 inv3 inv4 inv5s inv5q
    cases queue with
    | nil =>
      simp only [kahnLoop] at h
      cases h
      exact ⟨by simpa using inv1, inv5s, inv4⟩
    | cons id rest =>
      have hidmem : id ∈ nodes.map (fun n => n.id) := inv5q id (by simp)
      obtain ⟨node, hnode, hnodeid⟩ := nodesMapGet_of_mem nodes id hidmem
      have hgid := hg id hidmem
      have hidnotin : id ∉ sorted.map (fun n => n.id) := by
        intro hin
        rw [List.nodup_append] at inv1
        exact inv1.2.2 hin (by simp)
      have hnbsid : ∀ x ∈ (conns.filter (fun c => c.source == id)).map
          (fun c => c.target), x ∈ nodes.map (fun n => n.id) := by
        intro x hx
        obtain ⟨c', hc', hx'⟩ := List.mem_map.mp hx
        exact hx' ▸ htgt c' (List.mem_filter.mp hc').1
      have hcountLe : ∀ x,
          ((conns.filter (fun c => c.source == id)).map (fun c => c.target)).count x ≤
            remainingDeg conns (sorted.map (fun n => n.id)) x := by
        intro x
        rw [count_targets]
        apply List.countP_mono_left
        intro c _ hc
        simp only [Bool.and_eq_true, beq_iff_eq] at hc
        simp only [Bool.and_eq_true, Bool.not_eq_true']
        refine ⟨beq_iff_eq.mpr hc.1, ?_⟩
        cases hcont : (sorted.map (fun n => n.id)).contains c.source with
        | false => rfl
        | true =>
          have := (contains_true_iff _ _).mp hcont
          rw [hc.2] at this
          exact absurd this hidnotin
      have hkeys : ∀ x ∈ (conns.filter (fun c => c.source == id)).map
          (fun c => c.target), ∃ v : Int, jsMapGet d x = some v ∧
            ((((conns.filter (fun c => c.source == id)).map
              (fun c => c.target)).count x : Int) ≤ v) := by
        intro x hx
        refine ⟨((remainingDeg conns (sorted.map (fun n => n.id)) x : Nat) : Int),
          inv2 x (hnbsid x hx), ?_⟩
        have := hcountLe x
        omega
      obtain ⟨d', newQ, hpn, hget, hmem, hnodupQ, _⟩ :=
        processNeighbors_spec ((conns.filter (fun c => c.source == id)).map
          (fun c => c.target)) d rest hkeys
      have hloop : kahnLoop nodes g n d' (rest ++ newQ) (sorted ++ [node]) = .ok res := by
        simp only [kahnLoop, hnode, hgid, hpn] at h
        exact h
      -- facts about the new queue entries
      have hnewQfacts : ∀ x ∈ newQ,
          x ∈ (conns.filter (fun c => c.source == id)).map (fun c => c.target) ∧
          remainingDeg conns (sorted.map (fun n => n.id)) x =
            ((conns.filter (fun c => c.source == id)).map (fun c => c.target)).count x ∧
          0 < ((conns.filter (fun c => c.source == id)).map (fun c => c.target)).count x := by
        intro x hx
        obtain ⟨hxnbs, hxval⟩ := (hmem x).mp hx
        have h2 := inv2 x (hnbsid x hxnbs)
        rw [h2] at hxval
        have h3 := Option.some.inj hxval
        refine ⟨hxnbs, by omega, List.count_pos_iff.mpr hxnbs⟩
      have hnewQnot : ∀ x ∈ newQ, x ∉ sorted.map (fun n => n.id) ++ id :: rest := by
        intro x hx hxin
        obtain ⟨_, heq, hpos⟩ := hnewQfacts x hx
        have := inv3 x hxin
        omega
      have hids_append : (sorted ++ [node]).map (fun n => n.id) =
          sorted.map (fun n => n.id) ++ [id] := by
        simp [hnodeid]
      -- remaining degree after appending id
      have hrem : ∀ x, remainingDeg conns (sorted.map (fun n => n.id)) x =
          remainingDeg conns (sorted.map (fun n => n.id) ++ [id]) x +
            ((conns.filter (fun c => c.source == id)).map (fun c => c.target)).count x := by
        intro x
        rw [count_targets]
        exact remainingDeg_append conns _ id x hidnotin
      refine ih d' (rest ++ newQ) (sorted ++ [node]) res hloop ?_ ?_ ?_ ?_ ?_ ?_
      · -- nodup
        rw [hids_append]
        have hre : (sorted.map (fun n => n.id) ++ [id]) ++ (rest ++ newQ) =
            ((sorted.map (fun n => n.id) ++ id :: rest) ++ newQ) := by
          simp
        rw [hre]
        refine List.Nodup.append inv1 hnodupQ ?_
        intro x hx1 hx2
        exact hnewQnot x hx2 hx1
      · -- degree map tracks remaining degrees
        intro x hxnodes
        rw [hget x, inv2 x hxnodes, hids_append]
        simp only [Option.map_some']
        congr 1
        have := hrem x
        omega
      · -- all emitted or queued ids have remaining degree zero
        intro x hx
        rw [hids_append] at hx ⊢
        have hx' : x ∈ (sorted.map (fun n => n.id) ++ id :: rest) ∨ x ∈ newQ := by
          rcases List.mem_append.mp hx with hx | hx
          · rcases List.mem_append.mp hx with hx | hx
            · exact Or.inl (List.mem_append.mpr (Or.inl hx))
            · have hxid : x = id := by simpa using hx
              exact Or.inl (List.mem_append.mpr (Or.inr (hxid ▸ List.mem_cons_self id rest)))
          · rcases List.mem_append.mp hx with hx | hx
            · exact Or.inl (List.mem_append.mpr (Or.inr (List.mem_cons_of_mem id hx)))
            · exact Or.inr hx
        rcases hx' with hx' | hx'
        · have h0 := inv3 x hx'
          have := remainingDeg_mono conns (sorted.map (fun n => n.id)) id x
          omega
        · obtain ⟨_, heq, _⟩ := hnewQfacts x hx'
          have := hrem x
          omega
      · -- the ordering invariant
        intro c hc htgtmem
        rw [hids_append] at htgtmem ⊢
        rcases List.mem_append.mp htgtmem with hmem1 | hmem1
        · obtain ⟨hsrc1, hidx1⟩ := inv4 c hc hmem1
          refine ⟨List.mem_append.mpr (Or.inl hsrc1), ?_⟩
          rw [List.indexOf_append_of_mem hsrc1, List.indexOf_append_of_mem hmem1]
          exact hidx1
        · have htgtid : c.target = id := by simpa using hmem1
          have h0 : remainingDeg conns (sorted.map (fun n => n.id)) id = 0 :=
            inv3 id (by simp)
          have hsrcin : c.source ∈ sorted.map (fun n => n.id) := by
            have hall := List.countP_eq_zero.mp h0 c hc
            simp only [Bool.and_eq_true, Bool.not_eq_true'] at hall
            by_contra hnot
            apply hall
            refine ⟨beq_iff_eq.mpr htgtid, ?_⟩
            cases hcont : (sorted.map (fun n => n.id)).contains c.source with
            | true => exact absurd ((contains_true_iff _ _).mp hcont) hnot
            | false => rfl
          refine ⟨List.mem_append.mpr (Or.inl hsrcin), ?_⟩
          rw [List.indexOf_append_of_mem hsrcin, htgtid,
            indexOf_append_self _ _ hidnotin]
          exact List.indexOf_lt_length.mpr hsrcin
      · -- emitted ids are node ids
        intro x hx
        rw [hids_append] at hx
        rcases List.mem_append.mp hx with hx | hx
        · exact inv5s x hx
        · have : x = id := by simpa using hx
          exact this ▸ hidmem
      · -- queued ids are node ids
        intro x hx
        rcases List.mem_append.mp hx with hx | hx
        · exact inv5q x (List.mem_cons_of_mem id hx)
        · exact hnbsid x ((hnewQfacts x hx).1)

/-- Before anything is emitted the remaining degree is the in-degree. -/
theorem remainingDeg_nil (conns : List VisualScriptConnection) (x : String) :
    remainingDeg conns [] x = conns.countP (fun c => c.target == x) := by
  unfold remainingDeg
  apply List.countP_congr
  intro c _
  simp

/-- Claim C5: for an acyclic script (the sort returns all nodes) whose
connection endpoints are node ids, every connection's source is emitted
strictly before its target in the order `topologicalSort` returns — the
order in which the main loop of `compileFrom` emits each node's code. -/
theorem topologicalSort_respects_connections
    (nodes : List VisualScriptNode) (conns : List VisualScriptConnection)
    (sorted : List VisualScriptNode) (c : VisualScriptConnection)
    (hok : topologicalSort nodes conns = .ok sorted)
    (hall : sorted.length = nodes.length)
    (_hids : (nodes.map (fun n => n.id)).Nodup)
    (hend : ∀ c' ∈ conns, c'.source ∈ nodes.map (fun n => n.id) ∧
      c'.target ∈ nodes.map (fun n => n.id))
    (hc : c ∈ conns) :
    (sorted.map (fun n => n.id)).indexOf c.source <
      (sorted.map (fun n => n.id)).indexOf c.target := by
  have hg0 : ∀ x, jsMapGet (nodes.foldl (fun g n => jsMapSet g n.id ([] : List String)) [])
      x = if x ∈ nodes.map (fun n => n.id) then some [] else none := by
    intro x
    rw [initFold_get]
    simp [jsMapGet]
  have hd0 : ∀ x, jsMapGet (nodes.foldl (fun d n => jsMapSet d n.id (0 : Int)) []) x =
      if x ∈ nodes.map (fun n => n.id) then some 0 else none := by
    intro x
    rw [initFold_get]
    simp [jsMapGet]
  obtain ⟨g', d', hbuild, hgc, hdc, hkeys⟩ :=
    buildAdj_ok conns (nodes.foldl (fun g n => jsMapSet g n.id ([] : List String)) [])
      (nodes.foldl (fun d n => jsMapSet d n.id (0 : Int)) [])
      (fun c' h' => by rw [hg0]; simp [(hend c' h').1])
      (fun c' h' => by rw [hd0]; simp [(hend c' h').2])
  simp only [topologicalSort, hbuild] at hok
  have hd'get : ∀ x ∈ nodes.map (fun n => n.id),
      jsMapGet d' x = some ((remainingDeg conns ([] : List String) x : Int)) := by
    intro x hx
    rw [hdc x, hd0 x, if_pos hx, remainingDeg_nil]
    simp
  have hd0keys : ((nodes.foldl (fun d n => jsMapSet d n.id (0 : Int)) []).map
      (fun p => p.1)).Nodup := initFold_keys_nodup 0 nodes [] (by simp)
  have hd'keys : (d'.map (fun p => p.1)).Nodup := by rw [hkeys]; exact hd0keys
  have hq0 : ∀ x ∈ (d'.filter (fun p => p.2 == 0)).map (fun p => p.1),
      x ∈ nodes.map (fun n => n.id) ∧ remainingDeg conns ([] : List String) x = 0 := by
    intro x hx
    obtain ⟨p, hpfilter, hpx⟩ := List.mem_map.mp hx
    have hpd : p ∈ d' := (List.mem_filter.mp hpfilter).1
    have hp0 : p.2 = 0 := by simpa using (List.mem_filter.mp hpfilter).2
    have hget : jsMapGet d' x = some 0 := by
      rw [← hpx, ← hp0]
      exact jsMapGet_of_mem_of_nodupKeys d' p.1 p.2 (by simpa using hpd) hd'keys
    have hxids : x ∈ nodes.map (fun n => n.id) := by
      by_contra hnot
      rw [hdc x, hd0 x, if_neg hnot] at hget
      simp at hget
    refine ⟨hxids, ?_⟩
    rw [hd'get x hxids] at hget
    have := Option.some.inj hget
    omega
  have hq0nodup : ((d'.filter (fun p => p.2 == 0)).map (fun p => p.1)).Nodup :=
    List.Nodup.sublist (List.Sublist.map _ (List.filter_sublist d')) hd'keys
  obtain ⟨hnodupRes, hsubRes, hordRes⟩ :=
    kahnLoop_inv nodes conns g' (fun c' h' => (hend c' h').2)
      (fun x hx => by
        rw [hgc x, hg0 x, if_pos hx]
        simp)
      (nodes.length + conns.length + 1) d'
      ((d'.filter (fun p => p.2 == 0)).map (fun p => p.1)) [] sorted hok
      (by simpa using hq0nodup)
      (by simpa using hd'get)
      (by
        intro x hx
        simp only [List.map_nil, List.nil_append] at hx
        exact (hq0 x hx).2)
      (by simp)
      (by simp)
      (by
        intro x hx
        exact (hq0 x hx).1)
  have hsub : sorted.map (fun n => n.id) ⊆ nodes.map (fun n => n.id) :=
    fun x hx => hsubRes x hx
  have hlen : (nodes.map (fun n => n.id)).length ≤ (sorted.map (fun n => n.id)).length := by
    simp [hall]
  have hperm : (sorted.map (fun n => n.id)).Perm (nodes.map (fun n => n.id)) :=
    List.Subperm.perm_of_length_le (List.Nodup.subperm hnodupRes hsub) hlen
  have htgtmem : c.target ∈ sorted.map (fun n => n.id) :=
    hperm.mem_iff.mpr (hend c hc).2
  exact (hordRes c hc htgtmem).2

/-- Claim C5 witness: in the two-node chain the sort places `A` before
`B`. -/
theorem topologicalSort_respects_connections_witness :
    (([nodeA, nodeB].map (fun n => n.id)).indexOf
        (({ id := "c1", source := "A", sourceHandle := "out", target := "B",
            targetHandle := "a" } : VisualScriptConnection).source) <
      ([nodeA, nodeB].map (fun n => n.id)).indexOf
        (({ id := "c1", source := "A", sourceHandle := "out", target := "B",
            targetHandle := "a" } : VisualScriptConnection).target)) :=
  topologicalSort_respects_connections chainScript.nodes chainScript.connections
    [nodeA, nodeB]
    { id := "c1", source := "A", sourceHandle := "out", target := "B", targetHandle := "a" }
    rfl rfl (by decide) (by decide) (by decide)
